import Mathlib

/-!
Verification of the uk-vatlab bunching-estimation and policy-simulation
engine against its specification.

The core pipeline (binning, counterfactual fit, bunching statistics,
elasticity calibration, micro mapping, policy simulation) is shipped in
this repository only as methodology documentation; the executable
implementation is not under src/.  Following the spec, those components
are modelled here from the specification text (sections 4.3 to 4.6 and
section 8), with distributions as exact-rational mass functions over bin
indices.  The two frontend pieces that are present as code (the analyze
route handler and the policy form taper presets) are embedded directly
from the TypeScript source.
-/

namespace VATLab

/-- Total mass of a binned distribution with n bins (discrete integral of
the density over the whole support). -/
def total (n : ℕ) (f : ℕ → ℚ) : ℚ := ∑ i in Finset.range n, f i

/-- Mass of the bins with indices in the half-open range from a to b
(discrete integration over a window). -/
def wsum (f : ℕ → ℚ) (a b : ℕ) : ℚ := ∑ i in Finset.Ico a b, f i

/-- Positive part of the pointwise gap between two densities, summed over
the bins from a to b: the excess-mass integral of section 4.3. -/
def excess (fobs fcf : ℕ → ℚ) (a b : ℕ) : ℚ :=
  ∑ i in Finset.Ico a b, max (fobs i - fcf i) 0

/-- Cumulative mass strictly below bin index i (the unnormalised CDF at
the left edge of bin i). -/
def cumBelow (f : ℕ → ℚ) (i : ℕ) : ℚ := ∑ j in Finset.range i, f j

/-- Error raised by the bunching statistics stage when the counterfactual
mass below the threshold vanishes. -/
inductive BunchError
  | degenerateInput
deriving DecidableEq

/-- The derived bunching statistics of an observed/counterfactual pair:
window masses, excess mass, missing mass and the bunching b. -/
structure BunchStats where
  qNobs : ℚ
  qNcf : ℚ
  qRobs : ℚ
  qRcf : ℚ
  eMass : ℚ
  dR : ℚ
  b : ℚ
deriving DecidableEq

/-- Modelled from the spec: the Bunching Statistics stage of section 4.3
(its implementation is not under src/).  For a threshold at bin edge t
with an asymmetric window of wl bins below and wr bins above, it
integrates the observed and counterfactual densities over the two half
windows, forms the excess and missing masses, and the bunching value
b = (qNobs - qNcf) / qNcf, failing with degenerateInput when qNcf is
zero. -/
def bunchingStats (fobs fcf : ℕ → ℚ) (t wl wr : ℕ) :
    Except BunchError BunchStats :=
  if wsum fcf (t - wl) t = 0 then .error .degenerateInput
  else .ok ⟨wsum fobs (t - wl) t, wsum fcf (t - wl) t,
    wsum fobs t (t + wr), wsum fcf t (t + wr),
    excess fobs fcf (t - wl) t, excess fcf fobs t (t + wr),
    (wsum fobs (t - wl) t - wsum fcf (t - wl) t) / wsum fcf (t - wl) t⟩

/-- Error raised by the elasticity calibrator on out-of-domain inputs. -/
inductive CalibError
  | configError
deriving DecidableEq

/-- Numerical tolerance inside which the observed and counterfactual
above/below mass balance values are treated as equal by the calibrator. -/
def ratioEqTol : ℚ := 1 / 1000000000

/-- Modelled from the spec: the Elasticity Calibrator of section 4.4 (its
implementation is not under src/).  Given the four window masses and the
effective wedge te, it fails when 1 + te is not positive or any mass is
zero, returns exactly zero when the observed and counterfactual
above/below balances agree within ratioEqTol, and otherwise returns the
closed-form elasticity given by the quotient of logarithms. -/
noncomputable def calibrate (qNobs qRobs qNcf qRcf te : ℚ) :
    Except CalibError ℝ :=
  if 1 + te ≤ 0 then .error .configError
  else if qNobs = 0 ∨ qRobs = 0 ∨ qNcf = 0 ∨ qRcf = 0 then .error .configError
  else if |qRobs / qNobs - qRcf / qNcf| ≤ ratioEqTol then .ok 0
  else .ok (Real.log (((qRcf / qNcf) / (qRobs / qNobs) : ℚ) : ℝ) /
    Real.log ((1 + te : ℚ) : ℝ))

/-- Modelled from the spec: the aggregate displaced share of section 4.4,
one minus (1 + te) to the power minus sigma. -/
noncomputable def aggPi (sigma : ℝ) (te : ℚ) : ℝ :=
  1 - ((1 + te : ℚ) : ℝ) ^ (-sigma)

/-- Modelled from the spec: recovering sigma from a displaced share P and
wedge te by inverting P = 1 - (1 + te) ^ (-sigma), as in the worked
example of section 8. -/
noncomputable def recoverSigma (P te : ℚ) : ℝ :=
  -Real.log ((1 - P : ℚ) : ℝ) / Real.log ((1 + te : ℚ) : ℝ)

/-- Modelled from the spec: local bunching probability of section 4.5
(the Micro Mapper implementation is not under src/).  For a bin index i
strictly inside the lower half window, it is the aggregate displaced
share P scaled by the local excess density over the total excess mass,
defined as zero when the excess mass vanishes; outside the strict lower
half window it is zero. -/
def piLocal (fobs fcf : ℕ → ℚ) (t wl : ℕ) (P : ℚ) (i : ℕ) : ℚ :=
  if t - wl < i ∧ i < t then
    if excess fobs fcf (t - wl) t = 0 then 0
    else P * max (fobs i - fcf i) 0 / excess fobs fcf (t - wl) t
  else 0

/-- Modelled from the spec: rank among bunchers of section 4.5, the
cumulative excess mass up to and including bin i over the total excess
mass of the lower half window. -/
def rankU (fobs fcf : ℕ → ℚ) (t wl : ℕ) (i : ℕ) : ℚ :=
  excess fobs fcf (t - wl) (i + 1) / excess fobs fcf (t - wl) t

/-- Modelled from the spec: inversion of the piecewise-linear cumulative
mass function of a distribution at a target mass m, by locating the first
bin whose right-edge cumulative mass reaches m and interpolating linearly
inside that bin (positions are in bin-width units). -/
def invertMass (n : ℕ) (f : ℕ → ℚ) (m : ℚ) : ℚ :=
  match (List.range n).find? (fun i => decide (m ≤ cumBelow f (i + 1))) with
  | some i => i + (m - cumBelow f i) / f i
  | none => n

/-- Modelled from the spec: the displaced turnover target of section 4.5,
obtained by inverting the counterfactual cumulative mass at the mass
level of the threshold plus the buncher rank times the missing mass. -/
def dispTarget (n : ℕ) (fobs fcf : ℕ → ℚ) (t wl wr : ℕ) (i : ℕ) : ℚ :=
  invertMass n fcf
    (cumBelow fcf t + rankU fobs fcf t wl i * excess fcf fobs t (t + wr))

/-- Modelled from the spec: the probabilistic mixture of section 4.5
giving the expected counterfactual turnover, one minus the bunching
probability times the observed turnover plus the bunching probability
times the displaced turnover. -/
def expectedMix (p tobs disp : ℚ) : ℚ := (1 - p) * tobs + p * disp

/-- Modelled from the spec: the expected counterfactual turnover map of
section 4.5.  Bins strictly inside the lower half window get the
probabilistic mixture; all other bins, the window edges included, map to
themselves exactly. -/
def tcfExpected (n : ℕ) (fobs fcf : ℕ → ℚ) (t wl wr : ℕ) (P : ℚ)
    (i : ℕ) : ℚ :=
  if t - wl < i ∧ i < t then
    expectedMix (piLocal fobs fcf t wl P i) i (dispTarget n fobs fcf t wl wr i)
  else i

/-- Counterfactual mass at or above the bin index t. -/
def massAbove (n : ℕ) (f : ℕ → ℚ) (t : ℕ) : ℚ := ∑ i in Finset.Ico t n, f i

/-- Modelled from the spec: step 3 of the Policy Simulator of section
4.6, scaling the density at or above the new threshold down by one minus
the displaced share. -/
def scaleAbove (f : ℕ → ℚ) (t : ℕ) (P : ℚ) : ℕ → ℚ :=
  fun i => if t ≤ i then (1 - P) * f i else f i

/-- Modelled from the spec: the inverse-distance redistribution weight of
section 4.6 for a bin i below the new threshold t, with a floor of half a
bin width on the distance. -/
def invWeight (t i : ℕ) : ℚ := 1 / max ((t : ℚ) - (i : ℚ)) (1 / 2)

/-- Sum of the redistribution weights over the region below threshold t;
the weights are normalised by this value before scaling. -/
def weightSum (t : ℕ) : ℚ := ∑ i in Finset.range t, invWeight t i

/-- Modelled from the spec: step 4 of the Policy Simulator of section
4.6, adding to every bin below the new threshold its normalised
inverse-distance share of the relocated mass m. -/
def redistribute (f : ℕ → ℚ) (t : ℕ) (m : ℚ) : ℕ → ℚ :=
  fun i => if i < t then f i + m * (invWeight t i / weightSum t) else f i

/-- Modelled from the spec: three-point weighted moving average of
section 4.6 with weights one quarter, one half, one quarter; neighbours
outside the support contribute nothing, so mass can leak at the array
boundary. -/
def smooth3 (n : ℕ) (f : ℕ → ℚ) : ℕ → ℚ :=
  fun i => (if 1 ≤ i then f (i - 1) / 4 else 0) + f i / 2 +
    (if i + 1 < n then f (i + 1) / 4 else 0)

/-- Modelled from the spec: five-point weighted moving average of section
4.6 with weights one, two, four, two, one tenths; neighbours outside the
support contribute nothing. -/
def smooth5 (n : ℕ) (f : ℕ → ℚ) : ℕ → ℚ :=
  fun i => (if 2 ≤ i then f (i - 2) / 10 else 0) +
    (if 1 ≤ i then f (i - 1) / 5 else 0) + 2 * f i / 5 +
    (if i + 1 < n then f (i + 1) / 5 else 0) +
    (if i + 2 < n then f (i + 2) / 10 else 0)

/-- Modelled from the spec: renormalisation after a smoothing pass,
rescaling a density so that its total mass is the given target. -/
def renorm (n : ℕ) (f : ℕ → ℚ) (target : ℚ) : ℕ → ℚ :=
  fun i => f i * (target / total n f)

/-- Numerical tolerance of the final mass-conservation check of the
Policy Simulator. -/
def massTol : ℚ := 1 / 1000000

/-- Error raised by the Policy Simulator when the mass-conservation
check fails after redistribution and smoothing. -/
inductive SimError
  | invariantViolation
deriving DecidableEq

/-- Modelled from the spec: steps 2 to 4 of the Policy Simulator of
section 4.6 with the displaced share P supplied as a parameter: the mass
at or above the new threshold t is scaled down by one minus P and the
share P of it is redistributed below t by normalised inverse-distance
weights. -/
def redistributed (n : ℕ) (fcf : ℕ → ℚ) (t : ℕ) (P : ℚ) : ℕ → ℚ :=
  redistribute (scaleAbove fcf t P) t (P * massAbove n fcf t)

/-- Modelled from the spec: step 5 of the Policy Simulator of section
4.6, a three-point then a five-point smoothing pass, renormalising after
each pass to the total mass that entered the smoothing stage. -/
def smoothed (n : ℕ) (fcf : ℕ → ℚ) (t : ℕ) (P : ℚ) : ℕ → ℚ :=
  renorm n
    (smooth5 n
      (renorm n (smooth3 n (redistributed n fcf t P))
        (total n (redistributed n fcf t P))))
    (total n (redistributed n fcf t P))

/-- Modelled from the spec: the Policy Simulator of section 4.6 (its
implementation is not under src/), with the displaced share P supplied as
a parameter computed per step 1.  It redistributes and smooths the
counterfactual density and then verifies mass conservation against the
counterfactual total, failing with invariantViolation when the totals
disagree beyond massTol. -/
def simulate (n : ℕ) (fcf : ℕ → ℚ) (t : ℕ) (P : ℚ) :
    Except SimError (ℕ → ℚ) :=
  if |total n (smoothed n fcf t P) - total n fcf| ≤ massTol then
    .ok (smoothed n fcf t P)
  else .error .invariantViolation

/-- Taper options of the policy form, from PolicyForm.tsx. -/
inductive TaperType
  | noTaper
  | moderate
  | aggressive
  | custom
deriving DecidableEq

/-- The policy reform state held by the form, from PolicyForm.tsx: the
registration threshold, the chosen taper option and the optional taper
range and rate fields. -/
structure PolicyReform where
  registrationThreshold : ℤ
  taperType : TaperType
  taperStart : Option ℤ
  taperEnd : Option ℤ
  taperRate : Option ℚ
deriving DecidableEq

/-- The taper preset handler of PolicyForm.tsx.  Choosing moderate or
aggressive fills the taper range from the current registration threshold,
choosing no taper clears the range and rate, and choosing custom leaves
the fields as they are; the threshold itself is never changed. -/
def handleTaperTypeChange (reform : PolicyReform) (t : TaperType) :
    PolicyReform :=
  match t with
  | .moderate =>
    ⟨reform.registrationThreshold, t,
      some (max 65000 (reform.registrationThreshold - 25000)),
      some (reform.registrationThreshold + 20000), reform.taperRate⟩
  | .aggressive =>
    ⟨reform.registrationThreshold, t,
      some (max 50000 (reform.registrationThreshold - 35000)),
      some (reform.registrationThreshold + 10000), reform.taperRate⟩
  | .noTaper =>
    ⟨reform.registrationThreshold, t, none, none, none⟩
  | .custom =>
    ⟨reform.registrationThreshold, t, reform.taperStart, reform.taperEnd,
      reform.taperRate⟩

/-- The response record built by the POST handler of the analyze route
(route.ts): the echoed threshold and taper option, six yearly revenue
impacts, three firm counts and two summary figures. -/
structure AnalyzeResponse where
  threshold : ℤ
  taper : TaperType
  y2526 : ℚ
  y2627 : ℚ
  y2728 : ℚ
  y2829 : ℚ
  y2930 : ℚ
  y3031 : ℚ
  newlyRegistered : ℤ
  newlyDeregistered : ℤ
  netChange : ℤ
  totalImpact : ℚ
  avgImpact : ℚ
deriving DecidableEq

/-- The POST handler of the analyze route (route.ts), with the stream of
values drawn by the random number generator made explicit as the
argument r, consumed in source order: every numeric field of the mock
response is an affine image or a floor of a fresh random draw. -/
def analyzePost (bodyThreshold : Option ℤ) (bodyTaper : Option TaperType)
    (r : ℕ → ℚ) : AnalyzeResponse :=
  ⟨bodyThreshold.getD 90000, bodyTaper.getD .noTaper,
    r 0 * 1000 - 500, r 1 * 1000 - 500, r 2 * 1000 - 500,
    r 3 * 1000 - 500, r 4 * 1000 - 500, r 5 * 1000 - 500,
    ⌊r 6 * 50000⌋, ⌊r 7 * 30000⌋, ⌊r 8 * 80000 - 40000⌋,
    r 9 * 2000 - 1000, r 10 * 400 - 200⟩

section SimulatorLemmas

/-- The redistribution weights are positive. -/
lemma invWeight_pos (t i : ℕ) : 0 < invWeight t i := by
  unfold invWeight
  have h : (0 : ℚ) < max ((t : ℚ) - (i : ℚ)) (1 / 2) :=
    lt_of_lt_of_le (by norm_num) (le_max_right _ _)
  positivity

/-- With at least one bin below the threshold, the weight sum is
positive, so the normalised weights are well defined. -/
lemma weightSum_pos {t : ℕ} (ht : 1 ≤ t) : 0 < weightSum t := by
  unfold weightSum
  refine Finset.sum_pos (fun i _ => invWeight_pos t i) ?_
  exact Finset.nonempty_range_iff.mpr (Nat.one_le_iff_ne_zero.mp ht)

/-- Scaling the density at or above t by one minus P removes exactly P
times the mass above t from the total. -/
lemma total_scaleAbove (n t : ℕ) (f : ℕ → ℚ) (P : ℚ) (ht : t ≤ n) :
    total n (scaleAbove f t P) = total n f - P * massAbove n f t := by
  unfold total massAbove
  rw [Finset.range_eq_Ico, ← Finset.sum_Ico_consecutive _ (Nat.zero_le t) ht,
    ← Finset.sum_Ico_consecutive _ (Nat.zero_le t) ht]
  have hlow : ∑ i in Finset.Ico 0 t, scaleAbove f t P i =
      ∑ i in Finset.Ico 0 t, f i := by
    refine Finset.sum_congr rfl fun i hi => ?_
    unfold scaleAbove
    exact if_neg (Nat.not_le.mpr (Finset.mem_Ico.mp hi).2)
  have hhigh : ∑ i in Finset.Ico t n, scaleAbove f t P i =
      ∑ i in Finset.Ico t n, (1 - P) * f i := by
    refine Finset.sum_congr rfl fun i hi => ?_
    unfold scaleAbove
    exact if_pos (Finset.mem_Ico.mp hi).1
  rw [hlow, hhigh, ← Finset.mul_sum]
  ring

/-- Redistributing a mass m below the threshold with normalised weights
adds exactly m to the total. -/
lemma total_redistribute (n t : ℕ) (f : ℕ → ℚ) (m : ℚ) (ht1 : 1 ≤ t)
    (ht : t ≤ n) : total n (redistribute f t m) = total n f + m := by
  unfold total
  rw [Finset.range_eq_Ico, ← Finset.sum_Ico_consecutive _ (Nat.zero_le t) ht,
    ← Finset.sum_Ico_consecutive _ (Nat.zero_le t) ht]
  have hhigh : ∑ i in Finset.Ico t n, redistribute f t m i =
      ∑ i in Finset.Ico t n, f i := by
    refine Finset.sum_congr rfl fun i hi => ?_
    unfold redistribute
    exact if_neg (Nat.not_lt.mpr (Finset.mem_Ico.mp hi).1)
  have hlow : ∑ i in Finset.Ico 0 t, redistribute f t m i =
      (∑ i in Finset.Ico 0 t, f i) + m := by
    have hsplit : ∑ i in Finset.Ico 0 t, redistribute f t m i =
        ∑ i in Finset.Ico 0 t, (f i + m * (invWeight t i / weightSum t)) := by
      refine Finset.sum_congr rfl fun i hi => ?_
      unfold redistribute
      exact if_pos (Finset.mem_Ico.mp hi).2
    rw [hsplit, Finset.sum_add_distrib]
    have hw : ∑ i in Finset.Ico 0 t, m * (invWeight t i / weightSum t) =
        m := by
      rw [← Finset.range_eq_Ico]
      have hterm : ∑ i in Finset.range t, m * (invWeight t i / weightSum t) =
          ∑ i in Finset.range t, m * invWeight t i / weightSum t :=
        Finset.sum_congr rfl fun i _ =>
          mul_div_assoc' m (invWeight t i) (weightSum t)
      rw [hterm, ← Finset.sum_div, ← Finset.mul_sum]
      exact mul_div_cancel_right₀ m (ne_of_gt (weightSum_pos ht1))
    rw [hw]
  rw [hlow, hhigh]
  ring

/-- The redistribution step keeps the density nonnegative when the
displaced share P lies in the unit interval. -/
lemma redistributed_nonneg (n t : ℕ) (f : ℕ → ℚ) (P : ℚ)
    (hf : ∀ i, i < n → 0 ≤ f i) (hP0 : 0 ≤ P) (hP1 : P ≤ 1) (ht : t ≤ n) :
    ∀ i, i < n → 0 ≤ redistributed n f t P i := by
  intro i hi
  have hm : 0 ≤ P * massAbove n f t := by
    refine mul_nonneg hP0 (Finset.sum_nonneg fun j hj => ?_)
    exact hf j (Finset.mem_Ico.mp hj).2
  have hsc : 0 ≤ scaleAbove f t P i := by
    unfold scaleAbove
    split
    · exact mul_nonneg (by linarith) (hf i hi)
    · exact hf i hi
  unfold redistributed redistribute
  split
  · have hwpos := invWeight_pos t i
    have hW : 0 < weightSum t := weightSum_pos (by omega)
    have : 0 ≤ P * massAbove n f t * (invWeight t i / weightSum t) :=
      mul_nonneg hm (div_nonneg hwpos.le hW.le)
    linarith
  · exact hsc

/-- A three-point moving average keeps a nonnegative density
nonnegative. -/
lemma smooth3_nonneg (n : ℕ) (f : ℕ → ℚ) (hf : ∀ i, i < n → 0 ≤ f i) :
    ∀ i, i < n → 0 ≤ smooth3 n f i := by
  intro i hi
  unfold smooth3
  have h1 : (0:ℚ) ≤ if 1 ≤ i then f (i - 1) / 4 else 0 := by
    split
    · exact div_nonneg (hf _ (by omega)) (by norm_num)
    · exact le_refl 0
  have h2 : (0:ℚ) ≤ f i / 2 := div_nonneg (hf i hi) (by norm_num)
  have h3 : (0:ℚ) ≤ if i + 1 < n then f (i + 1) / 4 else 0 := by
    split
    · exact div_nonneg (hf _ (by omega)) (by norm_num)
    · exact le_refl 0
  linarith

/-- Each bin keeps at least half of its own mass under the three-point
average, so a positive total stays positive. -/
lemma total_smooth3_ge (n : ℕ) (f : ℕ → ℚ) (hf : ∀ i, i < n → 0 ≤ f i) :
    total n f / 2 ≤ total n (smooth3 n f) := by
  unfold total smooth3
  rw [Finset.sum_div]
  refine Finset.sum_le_sum fun i hi => ?_
  have hi' := Finset.mem_range.mp hi
  have h1 : (0:ℚ) ≤ if 1 ≤ i then f (i - 1) / 4 else 0 := by
    split
    · exact div_nonneg (hf _ (by omega)) (by norm_num)
    · exact le_refl 0
  have h3 : (0:ℚ) ≤ if i + 1 < n then f (i + 1) / 4 else 0 := by
    split
    · exact div_nonneg (hf _ (by omega)) (by norm_num)
    · exact le_refl 0
  linarith

/-- A five-point moving average keeps a nonnegative density
nonnegative. -/
lemma smooth5_nonneg (n : ℕ) (f : ℕ → ℚ) (hf : ∀ i, i < n → 0 ≤ f i) :
    ∀ i, i < n → 0 ≤ smooth5 n f i := by
  intro i hi
  unfold smooth5
  have h1 : (0:ℚ) ≤ if 2 ≤ i then f (i - 2) / 10 else 0 := by
    split
    · exact div_nonneg (hf _ (by omega)) (by norm_num)
    · exact le_refl 0
  have h2 : (0:ℚ) ≤ if 1 ≤ i then f (i - 1) / 5 else 0 := by
    split
    · exact div_nonneg (hf _ (by omega)) (by norm_num)
    · exact le_refl 0
  have h3 : (0:ℚ) ≤ 2 * f i / 5 := by
    have := hf i hi
    positivity
  have h4 : (0:ℚ) ≤ if i + 1 < n then f (i + 1) / 5 else 0 := by
    split
    · exact div_nonneg (hf _ (by omega)) (by norm_num)
    · exact le_refl 0
  have h5 : (0:ℚ) ≤ if i + 2 < n then f (i + 2) / 10 else 0 := by
    split
    · exact div_nonneg (hf _ (by omega)) (by norm_num)
    · exact le_refl 0
  linarith

/-- Each bin keeps at least two fifths of its own mass under the
five-point average. -/
lemma total_smooth5_ge (n : ℕ) (f : ℕ → ℚ) (hf : ∀ i, i < n → 0 ≤ f i) :
    2 * total n f / 5 ≤ total n (smooth5 n f) := by
  unfold total smooth5
  rw [show (2 : ℚ) * (∑ i in Finset.range n, f i) / 5 =
    ∑ i in Finset.range n, 2 * f i / 5 by
      rw [Finset.mul_sum, Finset.sum_div]]
  refine Finset.sum_le_sum fun i hi => ?_
  have hi' := Finset.mem_range.mp hi
  have h1 : (0:ℚ) ≤ if 2 ≤ i then f (i - 2) / 10 else 0 := by
    split
    · exact div_nonneg (hf _ (by omega)) (by norm_num)
    · exact le_refl 0
  have h2 : (0:ℚ) ≤ if 1 ≤ i then f (i - 1) / 5 else 0 := by
    split
    · exact div_nonneg (hf _ (by omega)) (by norm_num)
    · exact le_refl 0
  have h4 : (0:ℚ) ≤ if i + 1 < n then f (i + 1) / 5 else 0 := by
    split
    · exact div_nonneg (hf _ (by omega)) (by norm_num)
    · exact le_refl 0
  have h5 : (0:ℚ) ≤ if i + 2 < n then f (i + 2) / 10 else 0 := by
    split
    · exact div_nonneg (hf _ (by omega)) (by norm_num)
    · exact le_refl 0
  linarith

/-- Renormalising to a target total hits the target exactly whenever the
incoming total is nonzero. -/
lemma total_renorm (n : ℕ) (f : ℕ → ℚ) (t : ℚ) (h : total n f ≠ 0) :
    total n (renorm n f t) = t := by
  unfold renorm
  show total n (fun i => f i * (t / total n f)) = t
  unfold total
  rw [← Finset.sum_mul]
  show total n f * (t / total n f) = t
  rw [mul_div_assoc']
  rw [mul_comm]
  exact mul_div_cancel_right₀ t h

/-- Renormalising to a nonnegative target keeps a nonnegative density
nonnegative when the incoming total is positive. -/
lemma renorm_nonneg (n : ℕ) (f : ℕ → ℚ) (t : ℚ) (ht : 0 ≤ t)
    (hpos : 0 < total n f) (hf : ∀ i, i < n → 0 ≤ f i) :
    ∀ i, i < n → 0 ≤ renorm n f t i := by
  intro i hi
  unfold renorm
  exact mul_nonneg (hf i hi) (div_nonneg ht hpos.le)

/-- After redistribution the total is exactly the counterfactual
total. -/
lemma total_redistributed (n t : ℕ) (f : ℕ → ℚ) (P : ℚ) (ht1 : 1 ≤ t)
    (ht : t ≤ n) : total n (redistributed n f t P) = total n f := by
  unfold redistributed
  rw [total_redistribute n t _ _ ht1 ht, total_scaleAbove n t f P ht]
  ring

/-- The smoothing stage preserves the exact total that entered it, and
the simulated density therefore has exactly the counterfactual total. -/
lemma total_smoothed (n t : ℕ) (f : ℕ → ℚ) (P : ℚ) (ht1 : 1 ≤ t)
    (ht : t ≤ n) (hf : ∀ i, i < n → 0 ≤ f i) (hpos : 0 < total n f)
    (hP0 : 0 ≤ P) (hP1 : P ≤ 1) :
    total n (smoothed n f t P) = total n f := by
  have hg : total n (redistributed n f t P) = total n f :=
    total_redistributed n t f P ht1 ht
  have hgn : ∀ i, i < n → 0 ≤ redistributed n f t P i :=
    redistributed_nonneg n t f P hf hP0 hP1 ht
  have hs3 : 0 < total n (smooth3 n (redistributed n f t P)) := by
    have := total_smooth3_ge n _ hgn
    rw [hg] at this
    linarith
  have hr1 : total n (renorm n (smooth3 n (redistributed n f t P))
      (total n (redistributed n f t P))) = total n f := by
    rw [total_renorm _ _ _ (ne_of_gt hs3)]
    exact hg
  have hr1n : ∀ i, i < n → 0 ≤ renorm n (smooth3 n (redistributed n f t P))
      (total n (redistributed n f t P)) i := by
    refine renorm_nonneg n _ _ ?_ hs3 (smooth3_nonneg n _ hgn)
    rw [hg]; exact hpos.le
  have hs5 : 0 < total n (smooth5 n (renorm n
      (smooth3 n (redistributed n f t P))
      (total n (redistributed n f t P)))) := by
    have := total_smooth5_ge n _ hr1n
    rw [hr1] at this
    linarith
  unfold smoothed
  rw [total_renorm _ _ _ (ne_of_gt hs5)]
  exact hg

/-- For a valid threshold, a unit-interval displaced share and a
nonnegative counterfactual with positive total, the simulator passes its
mass-conservation check and returns the smoothed density. -/
lemma simulate_ok (n t : ℕ) (f : ℕ → ℚ) (P : ℚ) (ht1 : 1 ≤ t)
    (ht : t ≤ n) (hf : ∀ i, i < n → 0 ≤ f i) (hpos : 0 < total n f)
    (hP0 : 0 ≤ P) (hP1 : P ≤ 1) :
    simulate n f t P = .ok (smoothed n f t P) := by
  unfold simulate
  rw [total_smoothed n t f P ht1 ht hf hpos hP0 hP1]
  rw [if_pos]
  rw [sub_self, abs_zero]
  unfold massTol
  norm_num

end SimulatorLemmas

/-- C1: Policy Simulator mass conservation.  For every counterfactual
distribution with nonnegative density and positive total mass, every new
threshold with at least one bin below it inside the support, and every
displaced share in the unit interval (covering every admissible wedge),
the simulated distribution is returned successfully and its total mass
equals the total mass of the counterfactual exactly, hence within any
numerical tolerance; and whenever the redistributed and smoothed density
misses the counterfactual total by more than the tolerance, the
simulator fails with the invariant violation error. -/
theorem policy_sim_mass_conservation :
    (∀ (n t : ℕ) (f : ℕ → ℚ) (P : ℚ), 1 ≤ t → t ≤ n →
      (∀ i, i < n → 0 ≤ f i) → 0 < total n f → 0 ≤ P → P ≤ 1 →
      ∃ g, simulate n f t P = .ok g ∧ total n g = total n f) ∧
    (∀ (n t : ℕ) (f : ℕ → ℚ) (P : ℚ),
      ¬ |total n (smoothed n f t P) - total n f| ≤ massTol →
      simulate n f t P = .error .invariantViolation) := by
  constructor
  · intro n t f P ht1 ht hf hpos hP0 hP1
    exact ⟨smoothed n f t P, simulate_ok n t f P ht1 ht hf hpos hP0 hP1,
      total_smoothed n t f P ht1 ht hf hpos hP0 hP1⟩
  · intro n t f P h
    unfold simulate
    rw [if_neg h]

/-- Witness for C1: on the flat four-bin counterfactual with threshold
two and displaced share one half the simulator succeeds and conserves
mass, and on a degenerate call with no bin below the threshold the mass
check fails and the simulator raises the invariant violation error. -/
theorem policy_sim_mass_conservation_witness :
    ((0:ℚ) < total 4 (fun _ => 1) ∧
      ∃ g, simulate 4 (fun _ => 1) 2 (1/2) = .ok g ∧
        total 4 g = total 4 (fun _ => 1)) ∧
    (¬ |total 1 (smoothed 1 (fun _ => 1) 0 (1/2)) -
        total 1 (fun _ => 1)| ≤ massTol ∧
      simulate 1 (fun _ => 1) 0 (1/2) = .error .invariantViolation) := by
  have h1 : (0:ℚ) < total 4 (fun _ => 1) := by
    norm_num [total, Finset.sum_range_succ]
  have h2 : ¬ |total 1 (smoothed 1 (fun _ => (1:ℚ)) 0 (1/2)) -
      total 1 (fun _ => (1:ℚ))| ≤ massTol := by
    norm_num [total, smoothed, renorm, smooth5, smooth3, redistributed,
      redistribute, scaleAbove, massAbove, invWeight, weightSum, massTol,
      Finset.sum_range_succ, Finset.sum_Ico_eq_sum_range]
    rw [abs_of_nonneg (by norm_num : (0:ℚ) ≤ 1/2)]
    norm_num
  exact ⟨⟨h1, policy_sim_mass_conservation.1 4 2 _ _ (by norm_num)
      (by norm_num) (fun i _ => by norm_num) h1 (by norm_num)
      (by norm_num)⟩,
    ⟨h2, policy_sim_mass_conservation.2 1 0 _ _ h2⟩⟩

/-- C6: Bunching Statistics.  For every observed/counterfactual pair and
window, whenever the counterfactual mass below the threshold is nonzero
the stage succeeds and its bunching value equals the excess mass below
the threshold normalised by the counterfactual mass there, and the stage
fails with the degenerate input error exactly when that counterfactual
mass is zero. -/
theorem bunching_b_and_degenerate :
    ∀ (fobs fcf : ℕ → ℚ) (t wl wr : ℕ),
      (wsum fcf (t - wl) t ≠ 0 →
        ∃ s, bunchingStats fobs fcf t wl wr = .ok s ∧
          s.qNobs = wsum fobs (t - wl) t ∧ s.qNcf = wsum fcf (t - wl) t ∧
          s.b = (s.qNobs - s.qNcf) / s.qNcf) ∧
      (bunchingStats fobs fcf t wl wr = .error .degenerateInput ↔
        wsum fcf (t - wl) t = 0) := by
  intro fobs fcf t wl wr
  constructor
  · intro h
    refine ⟨⟨wsum fobs (t - wl) t, wsum fcf (t - wl) t,
      wsum fobs t (t + wr), wsum fcf t (t + wr),
      excess fobs fcf (t - wl) t, excess fcf fobs t (t + wr),
      (wsum fobs (t - wl) t - wsum fcf (t - wl) t) / wsum fcf (t - wl) t⟩,
      ?_, rfl, rfl, rfl⟩
    unfold bunchingStats
    rw [if_neg h]
  · constructor
    · intro h
      by_contra hne
      unfold bunchingStats at h
      rw [if_neg hne] at h
      exact Except.noConfusion h
    · intro h
      unfold bunchingStats
      rw [if_pos h]

/-- Witness for C6: a concrete doubled observed density over a flat
counterfactual yields the stated bunching value, and a zero
counterfactual triggers the degenerate input error. -/
theorem bunching_b_and_degenerate_witness :
    (wsum (fun _ => (1:ℚ)) 1 2 ≠ 0 ∧
      ∃ s, bunchingStats (fun _ => 2) (fun _ => 1) 2 1 1 = .ok s ∧
        s.qNobs = wsum (fun _ => (2:ℚ)) 1 2 ∧
        s.qNcf = wsum (fun _ => (1:ℚ)) 1 2 ∧
        s.b = (s.qNobs - s.qNcf) / s.qNcf) ∧
    bunchingStats (fun _ => (1:ℚ)) (fun _ => 0) 2 1 1 =
      .error .degenerateInput := by
  have h : wsum (fun _ => (1:ℚ)) 1 2 ≠ 0 := by
    norm_num [wsum, Finset.sum_Ico_eq_sum_range, Finset.sum_range_succ]
  exact ⟨⟨h, (bunching_b_and_degenerate (fun _ => 2) (fun _ => 1) 2 1 1).1 h⟩,
    (bunching_b_and_degenerate (fun _ => 1) (fun _ => 0) 2 1 1).2.mpr (by
      norm_num [wsum, Finset.sum_Ico_eq_sum_range, Finset.sum_range_succ])⟩

/-- C2: Elasticity Calibrator output.  For all inputs with a positive
one plus wedge and all four window masses nonzero, the calibrator
returns the closed-form quotient of logarithms whenever the observed and
counterfactual balances differ beyond the tolerance, and returns exactly
zero whenever they agree within the tolerance, rather than an unguarded
division. -/
theorem calibrator_formula_and_zero :
    ∀ (qNobs qRobs qNcf qRcf te : ℚ), 0 < 1 + te → qNobs ≠ 0 →
      qRobs ≠ 0 → qNcf ≠ 0 → qRcf ≠ 0 →
      (¬ |qRobs / qNobs - qRcf / qNcf| ≤ ratioEqTol →
        calibrate qNobs qRobs qNcf qRcf te =
          .ok (Real.log (((qRcf / qNcf) / (qRobs / qNobs) : ℚ) : ℝ) /
            Real.log ((1 + te : ℚ) : ℝ))) ∧
      (|qRobs / qNobs - qRcf / qNcf| ≤ ratioEqTol →
        calibrate qNobs qRobs qNcf qRcf te = .ok 0) := by
  intro qNobs qRobs qNcf qRcf te h1 h2 h3 h4 h5
  unfold calibrate
  rw [if_neg (not_le.mpr h1), if_neg (by push_neg; exact ⟨h2, h3, h4, h5⟩)]
  constructor
  · intro h
    rw [if_neg h]
  · intro h
    rw [if_pos h]

/-- Witness for C2: with masses two, one, one, one and wedge one
twentieth the balances differ and the calibrator returns the log
quotient, and with all masses one the balances agree exactly and it
returns zero. -/
theorem calibrator_formula_and_zero_witness :
    (¬ |(1:ℚ) / 2 - 1 / 1| ≤ ratioEqTol ∧
      calibrate 2 1 1 1 (1/20) =
        .ok (Real.log ((((1:ℚ) / 1) / (1 / 2) : ℚ) : ℝ) /
          Real.log ((1 + 1/20 : ℚ) : ℝ))) ∧
    (|(1:ℚ) / 1 - 1 / 1| ≤ ratioEqTol ∧
      calibrate 1 1 1 1 (1/20) = .ok 0) := by
  have hd : ¬ |(1:ℚ) / 2 - 1 / 1| ≤ ratioEqTol := by
    intro hcon
    rw [show (1:ℚ) / 2 - 1 / 1 = -(1/2) by norm_num, abs_neg,
      abs_of_nonneg (by norm_num : (0:ℚ) ≤ 1/2)] at hcon
    norm_num [ratioEqTol] at hcon
  have he : |(1:ℚ) / 1 - 1 / 1| ≤ ratioEqTol := by
    norm_num [ratioEqTol]
  exact ⟨⟨hd, (calibrator_formula_and_zero 2 1 1 1 (1/20) (by norm_num)
      (by norm_num) (by norm_num) (by norm_num) (by norm_num)).1 hd⟩,
    ⟨he, (calibrator_formula_and_zero 1 1 1 1 (1/20) (by norm_num)
      (by norm_num) (by norm_num) (by norm_num) (by norm_num)).2 he⟩⟩

/-- C7: no-distortion degeneracy.  When the observed and counterfactual
densities agree on every bin of the window and the counterfactual window
masses are nonzero, the bunching statistics succeed with b, excess mass
and missing mass all zero, the calibrator succeeds with elasticity
exactly zero, the displaced share at zero elasticity is zero, and the
local bunching probability is zero at every bin; no stage raises an
error. -/
theorem no_distortion_degeneracy :
    ∀ (fobs fcf : ℕ → ℚ) (t wl wr : ℕ) (te : ℚ),
      (∀ i, t - wl ≤ i → i < t + wr → fobs i = fcf i) →
      wsum fcf (t - wl) t ≠ 0 → wsum fcf t (t + wr) ≠ 0 → 0 < 1 + te →
      ∃ s, bunchingStats fobs fcf t wl wr = .ok s ∧ s.b = 0 ∧
        s.eMass = 0 ∧ s.dR = 0 ∧
        calibrate s.qNobs s.qRobs s.qNcf s.qRcf te = .ok 0 ∧
        aggPi 0 te = 0 ∧
        ∀ (P : ℚ) (i : ℕ), piLocal fobs fcf t wl P i = 0 := by
  intro fobs fcf t wl wr te heq hN hR hte
  have hNeq : wsum fobs (t - wl) t = wsum fcf (t - wl) t := by
    refine Finset.sum_congr rfl fun i hi => ?_
    have hm := Finset.mem_Ico.mp hi
    exact heq i hm.1 (lt_of_lt_of_le hm.2 (Nat.le_add_right t wr))
  have hReq : wsum fobs t (t + wr) = wsum fcf t (t + wr) := by
    refine Finset.sum_congr rfl fun i hi => ?_
    have hm := Finset.mem_Ico.mp hi
    exact heq i (le_trans (Nat.sub_le t wl) hm.1) hm.2
  have hE : excess fobs fcf (t - wl) t = 0 := by
    refine Finset.sum_eq_zero fun i hi => ?_
    have hm := Finset.mem_Ico.mp hi
    rw [heq i hm.1 (lt_of_lt_of_le hm.2 (Nat.le_add_right t wr))]
    simp
  have hDR : excess fcf fobs t (t + wr) = 0 := by
    refine Finset.sum_eq_zero fun i hi => ?_
    have hm := Finset.mem_Ico.mp hi
    rw [heq i (le_trans (Nat.sub_le t wl) hm.1) hm.2]
    simp
  refine ⟨⟨wsum fobs (t - wl) t, wsum fcf (t - wl) t,
    wsum fobs t (t + wr), wsum fcf t (t + wr),
    excess fobs fcf (t - wl) t, excess fcf fobs t (t + wr),
    (wsum fobs (t - wl) t - wsum fcf (t - wl) t) / wsum fcf (t - wl) t⟩,
    ?_, ?_, ?_, ?_, ?_, ?_, ?_⟩
  · unfold bunchingStats
    rw [if_neg hN]
  · show (wsum fobs (t - wl) t - wsum fcf (t - wl) t) /
      wsum fcf (t - wl) t = 0
    rw [hNeq, sub_self, zero_div]
  · exact hE
  · exact hDR
  · show calibrate (wsum fobs (t - wl) t) (wsum fobs t (t + wr))
      (wsum fcf (t - wl) t) (wsum fcf t (t + wr)) te = .ok 0
    unfold calibrate
    rw [if_neg (not_le.mpr hte), if_neg (by
      push_neg
      refine ⟨?_, ?_, hN, hR⟩
      · rw [hNeq]; exact hN
      · rw [hReq]; exact hR)]
    rw [if_pos (by
      rw [hNeq, hReq, sub_self, abs_zero]
      unfold ratioEqTol
      norm_num)]
  · unfold aggPi
    rw [neg_zero, Real.rpow_zero]
    ring
  · intro P i
    unfold piLocal
    rw [hE]
    simp

/-- Witness for C7: a flat pair with threshold two, unit half windows
and wedge one twentieth exhibits all the degenerate zero values without
any error. -/
theorem no_distortion_degeneracy_witness :
    wsum (fun _ => (1:ℚ)) 1 2 ≠ 0 ∧ wsum (fun _ => (1:ℚ)) 2 3 ≠ 0 ∧
    (0:ℚ) < 1 + 1/20 ∧
    ∃ s, bunchingStats (fun _ => (1:ℚ)) (fun _ => 1) 2 1 1 = .ok s ∧
      s.b = 0 ∧ s.eMass = 0 ∧ s.dR = 0 ∧
      calibrate s.qNobs s.qRobs s.qNcf s.qRcf (1/20) = .ok 0 ∧
      aggPi 0 (1/20) = 0 ∧
      ∀ (P : ℚ) (i : ℕ), piLocal (fun _ => 1) (fun _ => 1) 2 1 P i = 0 := by
  have hN : wsum (fun _ => (1:ℚ)) 1 2 ≠ 0 := by
    norm_num [wsum, Finset.sum_Ico_eq_sum_range, Finset.sum_range_succ]
  have hR : wsum (fun _ => (1:ℚ)) 2 3 ≠ 0 := by
    norm_num [wsum, Finset.sum_Ico_eq_sum_range, Finset.sum_range_succ]
  exact ⟨hN, hR, by norm_num,
    no_distortion_degeneracy (fun _ => 1) (fun _ => 1) 2 1 1 (1/20)
      (fun _ _ _ => rfl) hN hR (by norm_num)⟩

/-- C4: Micro Mapper expected value.  For every bin strictly inside the
lower half window the expected counterfactual turnover is the mixture of
the observed position and the displaced turnover obtained by inverting
the counterfactual cumulative mass at the threshold level plus the
buncher rank times the missing mass; and the mixture at observed
turnover 88 with probability three tenths and displaced target 96 is
exactly 90.4. -/
theorem micro_mapper_expected_value :
    (∀ (n : ℕ) (fobs fcf : ℕ → ℚ) (t wl wr : ℕ) (P : ℚ) (i : ℕ),
      t - wl < i → i < t →
      tcfExpected n fobs fcf t wl wr P i =
        (1 - piLocal fobs fcf t wl P i) * i +
          piLocal fobs fcf t wl P i *
            invertMass n fcf (cumBelow fcf t +
              rankU fobs fcf t wl i * excess fcf fobs t (t + wr))) ∧
    expectedMix (3/10) 88 96 = 452/5 := by
  constructor
  · intro n fobs fcf t wl wr P i h1 h2
    unfold tcfExpected
    rw [if_pos ⟨h1, h2⟩]
    rfl
  · unfold expectedMix
    norm_num

/-- Witness for C4 at a concrete in-window bin of a flat pair. -/
theorem micro_mapper_expected_value_witness :
    (3:ℕ) - 2 < 2 ∧ (2:ℕ) < 3 ∧
    tcfExpected 6 (fun _ => 1) (fun _ => 1) 3 2 1 (1/2) 2 =
      (1 - piLocal (fun _ => 1) (fun _ => 1) 3 2 (1/2) 2) * 2 +
        piLocal (fun _ => 1) (fun _ => 1) 3 2 (1/2) 2 *
          invertMass 6 (fun _ => 1) (cumBelow (fun _ => 1) 3 +
            rankU (fun _ => 1) (fun _ => 1) 3 2 2 *
              excess (fun _ => 1) (fun _ => 1) 3 4) := by
  exact ⟨by norm_num, by norm_num,
    micro_mapper_expected_value.1 6 (fun _ => 1) (fun _ => 1) 3 2 1 (1/2) 2
      (by norm_num) (by norm_num)⟩

/-- C5: Micro Mapper boundary identity.  At every bin not strictly
inside the lower half window the local bunching probability is zero and
the expected counterfactual turnover is the observed turnover exactly,
and in particular this holds at both window edges. -/
theorem micro_mapper_boundary_identity :
    ∀ (n : ℕ) (fobs fcf : ℕ → ℚ) (t wl wr : ℕ) (P : ℚ),
      (∀ i, ¬ (t - wl < i ∧ i < t) →
        piLocal fobs fcf t wl P i = 0 ∧
        tcfExpected n fobs fcf t wl wr P i = i) ∧
      (piLocal fobs fcf t wl P (t - wl) = 0 ∧
        tcfExpected n fobs fcf t wl wr P (t - wl) = ((t - wl : ℕ) : ℚ)) ∧
      (piLocal fobs fcf t wl P t = 0 ∧
        tcfExpected n fobs fcf t wl wr P t = (t : ℚ)) := by
  intro n fobs fcf t wl wr P
  have main : ∀ i, ¬ (t - wl < i ∧ i < t) →
      piLocal fobs fcf t wl P i = 0 ∧
      tcfExpected n fobs fcf t wl wr P i = i := by
    intro i h
    constructor
    · unfold piLocal
      rw [if_neg h]
    · unfold tcfExpected
      rw [if_neg h]
  exact ⟨main, main (t - wl) (fun hc => lt_irrefl _ hc.1),
    main t (fun hc => lt_irrefl _ hc.2)⟩

/-- Witness for C5 at a bin above the threshold and at both edges of a
concrete window. -/
theorem micro_mapper_boundary_identity_witness :
    (¬ ((3:ℕ) - 2 < 5 ∧ (5:ℕ) < 3) ∧
      piLocal (fun _ => 1) (fun _ => 1) 3 2 (1/2) 5 = 0 ∧
      tcfExpected 6 (fun _ => 1) (fun _ => 1) 3 2 1 (1/2) 5 = 5) ∧
    (piLocal (fun _ => 1) (fun _ => 1) 3 2 (1/2) 1 = 0 ∧
      tcfExpected 6 (fun _ => 1) (fun _ => 1) 3 2 1 (1/2) 1 =
        (((3:ℕ) - 2 : ℕ) : ℚ)) ∧
    (piLocal (fun _ => 1) (fun _ => 1) 3 2 (1/2) 3 = 0 ∧
      tcfExpected 6 (fun _ => 1) (fun _ => 1) 3 2 1 (1/2) 3 = 3) := by
  have h := micro_mapper_boundary_identity 6 (fun _ => 1) (fun _ => 1)
    3 2 1 (1/2)
  have hout : ¬ ((3:ℕ) - 2 < 5 ∧ (5:ℕ) < 3) := by omega
  have h5 := h.1 5 hout
  exact ⟨⟨hout, h5.1, by rw [h5.2]; norm_num⟩, h.2.1, h.2.2⟩

/-- C10: taper preset defaults in the policy form.  For every current
reform state, choosing the moderate preset sets the taper range to
max 65000 (threshold minus 25000) up to threshold plus 20000, choosing
the aggressive preset sets it to max 50000 (threshold minus 35000) up to
threshold plus 10000, choosing no taper clears the taper start, end and
rate, and the registration threshold itself is unchanged in every
case. -/
theorem taper_preset_defaults :
    ∀ reform : PolicyReform,
      ((handleTaperTypeChange reform .moderate).taperStart =
          some (max 65000 (reform.registrationThreshold - 25000)) ∧
        (handleTaperTypeChange reform .moderate).taperEnd =
          some (reform.registrationThreshold + 20000) ∧
        (handleTaperTypeChange reform .moderate).registrationThreshold =
          reform.registrationThreshold) ∧
      ((handleTaperTypeChange reform .aggressive).taperStart =
          some (max 50000 (reform.registrationThreshold - 35000)) ∧
        (handleTaperTypeChange reform .aggressive).taperEnd =
          some (reform.registrationThreshold + 10000) ∧
        (handleTaperTypeChange reform .aggressive).registrationThreshold =
          reform.registrationThreshold) ∧
      ((handleTaperTypeChange reform .noTaper).taperStart = none ∧
        (handleTaperTypeChange reform .noTaper).taperEnd = none ∧
        (handleTaperTypeChange reform .noTaper).taperRate = none ∧
        (handleTaperTypeChange reform .noTaper).registrationThreshold =
          reform.registrationThreshold) := by
  intro reform
  exact ⟨⟨rfl, rfl, rfl⟩, ⟨rfl, rfl, rfl⟩, ⟨rfl, rfl, rfl, rfl⟩⟩

/-- C9: the analyze route handler is not deterministic.  The POST
handler builds its response from fresh random draws, so two runs on the
same request body with different draw streams return different
responses, contradicting the deterministic pure pipeline the
specification describes. -/
theorem analyze_route_nondeterministic :
    analyzePost (some 90000) (some .noTaper) (fun _ => 0) ≠
      analyzePost (some 90000) (some .noTaper) (fun _ => 1/2) := by
  intro h
  have hy := congrArg AnalyzeResponse.y2526 h
  unfold analyzePost at hy
  norm_num at hy

/-- C3 counterexample: at elasticity one, which is nonnegative, and
wedge minus one half, for which one plus the wedge is positive, the
displaced share formula evaluates to minus one, outside the unit
interval claimed. -/
theorem displaced_share_range_counterexample :
    (0:ℝ) ≤ 1 ∧ (0:ℚ) < 1 + (-(1/2)) ∧ aggPi 1 (-(1/2)) < 0 := by
  refine ⟨by norm_num, by norm_num, ?_⟩
  unfold aggPi
  rw [Real.rpow_neg_one]
  have hc : ((1 + (-(1/2)) : ℚ) : ℝ) = 1/2 := by norm_num
  rw [hc]
  norm_num

/-- C3 amended: for every nonnegative elasticity and nonnegative wedge
the displaced share is given by the power-law formula and lies in the
unit interval excluding one; and recovering the elasticity from a
displaced share of 0.182 under a wedge of 0.050 gives a value within
half a thousandth of 4.117. -/
theorem displaced_share_range_and_example :
    (∀ (sigma : ℝ) (te : ℚ), 0 ≤ sigma → 0 ≤ te →
      aggPi sigma te = 1 - ((1 + te : ℚ) : ℝ) ^ (-sigma) ∧
      0 ≤ aggPi sigma te ∧ aggPi sigma te < 1) ∧
    |recoverSigma (182/1000) (50/1000) - 4117/1000| < 1/2000 := by
  constructor
  · intro sigma te hs hte
    have hb1 : (1:ℝ) ≤ ((1 + te : ℚ) : ℝ) := by
      exact_mod_cast (by linarith : (1:ℚ) ≤ 1 + te)
    have hbpos : (0:ℝ) < ((1 + te : ℚ) : ℝ) := lt_of_lt_of_le one_pos hb1
    have hle : ((1 + te : ℚ) : ℝ) ^ (-sigma) ≤ 1 :=
      Real.rpow_le_one_of_one_le_of_nonpos hb1 (neg_nonpos.mpr hs)
    have hpos : (0:ℝ) < ((1 + te : ℚ) : ℝ) ^ (-sigma) :=
      Real.rpow_pos_of_pos hbpos _
    refine ⟨rfl, ?_, ?_⟩
    · unfold aggPi
      linarith
    · unfold aggPi
      linarith
  · have hx1 : |(91:ℝ)/500| < 1 := by
      rw [abs_of_nonneg (by norm_num : (0:ℝ) ≤ 91/500)]
      norm_num
    have hx2 : |(-(1/20):ℝ)| < 1 := by
      rw [abs_neg, abs_of_nonneg (by norm_num : (0:ℝ) ≤ 1/20)]
      norm_num
    have hb1 := Real.abs_log_sub_add_sum_range_le hx1 9
    have hb2 := Real.abs_log_sub_add_sum_range_le hx2 6
    rw [abs_of_nonneg (by norm_num : (0:ℝ) ≤ 91/500)] at hb1
    rw [abs_neg, abs_of_nonneg (by norm_num : (0:ℝ) ≤ 1/20)] at hb2
    have hs1 : ∑ i in Finset.range 9, ((91:ℝ)/500) ^ (i + 1) / (i + 1) =
        7062642337488395703537947/35156250000000000000000000 := by
      norm_num [Finset.sum_range_succ]
    have hs2 : ∑ i in Finset.range 6, (-(1/20):ℝ) ^ (i + 1) / (i + 1) =
        -(6245141/128000000) := by
      norm_num [Finset.sum_range_succ]
    rw [hs1] at hb1
    rw [hs2] at hb2
    have he1 : ((91:ℝ)/500) ^ (9 + 1) / (1 - 91/500) ≤ 1/20000000 := by
      norm_num
    have he2 : ((1:ℝ)/20) ^ (6 + 1) / (1 - 1/20) ≤ 1/1000000000 := by
      norm_num
    have hL1 := abs_le.mp hb1
    have hL2 := abs_le.mp hb2
    have hrs : recoverSigma (182/1000) (50/1000) =
        -Real.log (1 - (91:ℝ)/500) / Real.log (1 - (-(1/20):ℝ)) := by
      unfold recoverSigma
      norm_num
    have hL2lo : (6245141:ℝ)/128000000 - 1/1000000000 ≤
        Real.log (1 - (-(1/20):ℝ)) := by
      have := hL2.1
      linarith
    have hL2hi : Real.log (1 - (-(1/20):ℝ)) ≤
        (6245141:ℝ)/128000000 + 1/1000000000 := by
      have := hL2.2
      linarith
    have hL1lo : (7062642337488395703537947:ℝ)/35156250000000000000000000 -
        1/20000000 ≤ -Real.log (1 - (91:ℝ)/500) := by
      have := hL1.2
      linarith
    have hL1hi : -Real.log (1 - (91:ℝ)/500) ≤
        (7062642337488395703537947:ℝ)/35156250000000000000000000 +
          1/20000000 := by
      have := hL1.1
      linarith
    have hL2pos : (0:ℝ) < Real.log (1 - (-(1/20):ℝ)) := by
      have h0 : (0:ℝ) < 6245141/128000000 - 1/1000000000 := by norm_num
      linarith
    have hlow : (8233:ℝ)/2000 < -Real.log (1 - (91:ℝ)/500) /
        Real.log (1 - (-(1/20):ℝ)) := by
      rw [lt_div_iff₀ hL2pos]
      have hkey : (8233:ℝ)/2000 * (6245141/128000000 + 1/1000000000) <
          7062642337488395703537947/35156250000000000000000000 -
            1/20000000 := by
        norm_num
      have hmul : (8233:ℝ)/2000 * Real.log (1 - (-(1/20):ℝ)) ≤
          8233/2000 * (6245141/128000000 + 1/1000000000) := by
        linarith
      linarith
    have hhigh : -Real.log (1 - (91:ℝ)/500) /
        Real.log (1 - (-(1/20):ℝ)) < 8235/2000 := by
      rw [div_lt_iff₀ hL2pos]
      have hkey : (7062642337488395703537947:ℝ)/35156250000000000000000000 +
          1/20000000 <
          8235/2000 * (6245141/128000000 - 1/1000000000) := by
        norm_num
      have hmul : (8235:ℝ)/2000 * (6245141/128000000 - 1/1000000000) ≤
          8235/2000 * Real.log (1 - (-(1/20):ℝ)) := by
        linarith
      linarith
    rw [hrs, abs_lt]
    constructor
    · linarith
    · linarith

/-- Witness for C3 amended at elasticity one and wedge one twentieth. -/
theorem displaced_share_range_and_example_witness :
    (0:ℝ) ≤ 1 ∧ (0:ℚ) ≤ 1/20 ∧
    (aggPi 1 (1/20) = 1 - ((1 + 1/20 : ℚ) : ℝ) ^ (-(1:ℝ)) ∧
      0 ≤ aggPi 1 (1/20) ∧ aggPi 1 (1/20) < 1) := by
  exact ⟨by norm_num, by norm_num,
    displaced_share_range_and_example.1 1 (1/20) (by norm_num)
      (by norm_num)⟩

/-- Concrete observed density for the idempotence check: a flat unit
density with a bunching spike of one extra unit in the bin just below
the threshold at index three. -/
def fobsCex : ℕ → ℚ := fun i => if i = 2 then 2 else 1

/-- Concrete flat counterfactual density for the idempotence check. -/
def fcfCex : ℕ → ℚ := fun _ => 1

set_option maxHeartbeats 1000000 in
/-- Exact value of the simulated mass in the lower half window of the
idempotence check: the simulator run on the flat counterfactual at the
original threshold three with displaced share one half puts mass
1025/726 into the single bin below the threshold. -/
lemma wsum_smoothed_cex : wsum (smoothed 6 fcfCex 3 (1/2)) 2 3 =
    1025/726 := by
  norm_num [wsum, smoothed, renorm, smooth5, smooth3, redistributed,
    redistribute, scaleAbove, massAbove, invWeight, weightSum, total,
    fcfCex, Finset.sum_Ico_eq_sum_range, Finset.sum_range_succ]

/-- Window masses of the concrete counterexample distributions. -/
lemma cex_window_masses : wsum fobsCex 2 3 = 2 ∧ wsum fobsCex 3 4 = 1 ∧
    wsum fcfCex 2 3 = 1 ∧ wsum fcfCex 3 4 = 1 ∧
    excess fobsCex fcfCex 2 3 = 1 ∧ excess fcfCex fobsCex 3 4 = 0 ∧
    total 6 fcfCex = 6 := by
  refine ⟨?_, ?_, ?_, ?_, ?_, ?_, ?_⟩ <;>
    norm_num [wsum, excess, total, fobsCex, fcfCex,
      Finset.sum_Ico_eq_sum_range, Finset.sum_range_succ]

/-- C8 counterexample: with the spiked observed density over the flat
counterfactual, unit half windows at threshold three and wedge one, the
calibrator returns elasticity exactly one and displaced share one half,
the simulator run back at the same threshold with the same wedge
succeeds, yet the bunching value of the simulated distribution differs
from the observed bunching value of one by more than one half, far
beyond any numerical tolerance. -/
theorem policy_sim_idempotence_counterexample :
    bunchingStats fobsCex fcfCex 3 1 1 = .ok ⟨2, 1, 1, 1, 1, 0, 1⟩ ∧
    calibrate 2 1 1 1 1 = .ok 1 ∧
    aggPi 1 1 = 1/2 ∧
    simulate 6 fcfCex 3 (1/2) = .ok (smoothed 6 fcfCex 3 (1/2)) ∧
    bunchingStats (smoothed 6 fcfCex 3 (1/2)) fcfCex 3 1 1 =
      .ok ⟨1025/726, 1, wsum (smoothed 6 fcfCex 3 (1/2)) 3 4, 1,
        excess (smoothed 6 fcfCex 3 (1/2)) fcfCex 2 3,
        excess fcfCex (smoothed 6 fcfCex 3 (1/2)) 3 4, 299/726⟩ ∧
    (1:ℚ)/2 < |299/726 - 1| := by
  obtain ⟨hN, hR, hcfN, hcfR, hE, hDR, htot⟩ := cex_window_masses
  refine ⟨?_, ?_, ?_, ?_, ?_, ?_⟩
  · unfold bunchingStats
    rw [if_neg (by rw [hcfN]; norm_num)]
    rw [hN, hR, hcfN, hcfR, hE, hDR]
    norm_num
  · unfold calibrate
    rw [if_neg (by norm_num), if_neg (by norm_num),
      if_neg (by
        intro hcon
        rw [show (1:ℚ) / 2 - 1 / 1 = -(1/2) by norm_num, abs_neg,
          abs_of_nonneg (by norm_num : (0:ℚ) ≤ 1/2)] at hcon
        norm_num [ratioEqTol] at hcon)]
    have hcast1 : ((((1:ℚ) / 1) / (1 / 2) : ℚ) : ℝ) = 2 := by norm_num
    have hcast2 : ((1 + 1 : ℚ) : ℝ) = 2 := by norm_num
    rw [hcast1, hcast2,
      div_self (Real.log_ne_zero_of_pos_of_ne_one (by norm_num)
        (by norm_num))]
  · unfold aggPi
    rw [Real.rpow_neg_one]
    have hc : ((1 + 1 : ℚ) : ℝ) = 2 := by norm_num
    rw [hc]
    norm_num
  · refine simulate_ok 6 3 fcfCex (1/2) (by norm_num) (by norm_num)
      (fun i _ => by norm_num [fcfCex]) ?_ (by norm_num) (by norm_num)
    rw [htot]
    norm_num
  · unfold bunchingStats
    rw [if_neg (by rw [hcfN]; norm_num)]
    rw [wsum_smoothed_cex, hcfN, hcfR]
    norm_num
  · rw [show (299:ℚ)/726 - 1 = -(427/726) by norm_num, abs_neg,
      abs_of_nonneg (by norm_num : (0:ℚ) ≤ 427/726)]
    norm_num

/-- C8 amended: simulating a reform back to the same threshold with the
same wedge rescales the above-threshold counterfactual mass by one minus
the displaced share, which restores exactly the observed above/below
mass balance relative to the counterfactual below-threshold mass; the
bunching statistics of the fully redistributed and smoothed distribution
are not in general reproduced. -/
theorem policy_sim_idempotence_ratio :
    ∀ (qNobs qRobs qNcf qRcf te : ℚ), 0 < qNobs → 0 < qRobs → 0 < qNcf →
      0 < qRcf → 0 < 1 + te → te ≠ 0 →
      (1 - aggPi (Real.log (((qRcf / qNcf) / (qRobs / qNobs) : ℚ) : ℝ) /
          Real.log ((1 + te : ℚ) : ℝ)) te) * ((qRcf / qNcf : ℚ) : ℝ) =
        ((qRobs / qNobs : ℚ) : ℝ) := by
  intro qNobs qRobs qNcf qRcf te hNo hRo hNc hRc hte hne
  have hrq : (0:ℚ) < (qRcf / qNcf) / (qRobs / qNobs) :=
    div_pos (div_pos hRc hNc) (div_pos hRo hNo)
  have hr : (0:ℝ) < (((qRcf / qNcf) / (qRobs / qNobs) : ℚ) : ℝ) := by
    exact_mod_cast hrq
  have hb : (0:ℝ) < ((1 + te : ℚ) : ℝ) := by exact_mod_cast hte
  have hb1 : ((1 + te : ℚ) : ℝ) ≠ 1 := by
    intro hcon
    apply hne
    have : (1 + te : ℚ) = 1 := by exact_mod_cast hcon
    linarith
  have hlb : Real.log ((1 + te : ℚ) : ℝ) ≠ 0 :=
    Real.log_ne_zero_of_pos_of_ne_one hb hb1
  unfold aggPi
  rw [sub_sub_cancel]
  rw [Real.rpow_def_of_pos hb]
  rw [show Real.log ((1 + te : ℚ) : ℝ) *
      -(Real.log (((qRcf / qNcf) / (qRobs / qNobs) : ℚ) : ℝ) /
        Real.log ((1 + te : ℚ) : ℝ)) =
      -Real.log (((qRcf / qNcf) / (qRobs / qNobs) : ℚ) : ℝ) by
    rw [mul_neg, mul_comm, div_mul_cancel₀ _ hlb]]
  rw [Real.exp_neg, Real.exp_log hr]
  have hcast : (((qRcf / qNcf) / (qRobs / qNobs) : ℚ) : ℝ) =
      ((qRcf / qNcf : ℚ) : ℝ) / ((qRobs / qNobs : ℚ) : ℝ) := by
    push_cast
    ring
  rw [hcast]
  have h1 : ((qRcf / qNcf : ℚ) : ℝ) ≠ 0 := by
    have : (0:ℚ) < qRcf / qNcf := div_pos hRc hNc
    exact ne_of_gt (by exact_mod_cast this)
  have h2 : ((qRobs / qNobs : ℚ) : ℝ) ≠ 0 := by
    have : (0:ℚ) < qRobs / qNobs := div_pos hRo hNo
    exact ne_of_gt (by exact_mod_cast this)
  field_simp
  ring

/-- Witness for C8 amended at the counterexample masses and wedge
one. -/
theorem policy_sim_idempotence_ratio_witness :
    (0:ℚ) < 2 ∧ (0:ℚ) < 1 + 1 ∧ (1:ℚ) ≠ 0 ∧
    (1 - aggPi (Real.log ((((1:ℚ) / 1) / (1 / 2) : ℚ) : ℝ) /
        Real.log ((1 + 1 : ℚ) : ℝ)) 1) * (((1:ℚ) / 1 : ℚ) : ℝ) =
      (((1:ℚ) / 2 : ℚ) : ℝ) := by
  exact ⟨by norm_num, by norm_num, by norm_num,
    policy_sim_idempotence_ratio 2 1 1 1 1 (by norm_num) (by norm_num)
      (by norm_num) (by norm_num) (by norm_num) (by norm_num)⟩

end VATLab
